import Mathlib

/-!
# Verification of the PCF parser and bitmap vectorizer

Shallow embedding of the two JavaScript sources of the
`dotted-chinese-fonts` converter:

* `pcf-parser.js` (class `PcfParser`): binary table-directory parser for
  PCF bitmap fonts, with per-table endianness and format flags;
* `pcf2opentype.js`: code-point filtering and bitmap-to-outline
  vectorization.

Byte buffers are `List Nat` (each element a byte value).  Fallible reads
return `Option`.  JavaScript numbers that can be fractional are modelled
as `ℚ`; `Math.round` is modelled exactly (`⌊q + 1/2⌋`).
-/

namespace PcfParser

/-- Byte endianness, as selected per table by the PCF format word. -/
inductive Endian where
  | little
  | big
deriving DecidableEq, Repr

/-- Reads one byte (`uint8`) at index `i`; fails when past the end. -/
def readU8 (buf : List Nat) (i : Nat) : Option Nat :=
  buf[i]?

/-- Reads a 16-bit unsigned integer at `i` with endianness `e`. -/
def readU16 (e : Endian) (buf : List Nat) (i : Nat) : Option Nat :=
  (readU8 buf i).bind fun b0 =>
  (readU8 buf (i + 1)).bind fun b1 =>
  some (match e with
    | .little => b0 + 256 * b1
    | .big => 256 * b0 + b1)

/-- Reads a 32-bit unsigned integer at `i` with endianness `e`. -/
def readU32 (e : Endian) (buf : List Nat) (i : Nat) : Option Nat :=
  (readU8 buf i).bind fun b0 =>
  (readU8 buf (i + 1)).bind fun b1 =>
  (readU8 buf (i + 2)).bind fun b2 =>
  (readU8 buf (i + 3)).bind fun b3 =>
  some (match e with
    | .little => b0 + 256 * b1 + 65536 * b2 + 16777216 * b3
    | .big => 16777216 * b0 + 65536 * b1 + 256 * b2 + b3)

/-- Reads `n` consecutive 16-bit integers starting at `i` (stride 2). -/
def readU16List (e : Endian) (buf : List Nat) (i : Nat) : Nat → Option (List Nat)
  | 0 => some []
  | n + 1 =>
    (readU16 e buf i).bind fun v =>
    (readU16List e buf (i + 2) n).bind fun rest =>
    some (v :: rest)

/-- Reads `n` consecutive 32-bit integers starting at `i` (stride 4). -/
def readU32List (e : Endian) (buf : List Nat) (i : Nat) : Nat → Option (List Nat)
  | 0 => some []
  | n + 1 =>
    (readU32 e buf i).bind fun v =>
    (readU32List e buf (i + 4) n).bind fun rest =>
    some (v :: rest)

/-- `PcfParser.getEndianessFromFormat`: bit 2 of the format word selects
big-endian (`format & 1 << 2 ? 'big' : 'little'`). -/
def getEndianessFromFormat (format : Nat) : Endian :=
  if format &&& (1 <<< 2) ≠ 0 then .big else .little

/-- `PcfParser.isCompressedMetrics`:
`(format & 0xFFFFFF00) == 0x100`. -/
def isCompressedMetrics (format : Nat) : Bool :=
  format &&& 0xFFFFFF00 == 0x100

/-- The encoding table (`PCF_BDF_ENCODINGS`), as parsed. -/
structure EncodingTable where
  format : Nat
  minCharOrByte2 : Nat
  maxCharOrByte2 : Nat
  minByte1 : Nat
  maxByte1 : Nat
  defaultChar : Nat
  glyphIndeces : List Nat
deriving DecidableEq, Repr

/-- Number of glyph indices the encoding table declares:
`(maxCharOrByte2 - minCharOrByte2 + 1) * (maxByte1 - minByte1 + 1)`,
computed in ℤ as JavaScript does (a negative product reads 0 items). -/
def encodingIndexCount (min2 max2 minB1 maxB1 : Nat) : Nat :=
  (((max2 : Int) - (min2 : Int) + 1) * ((maxB1 : Int) - (minB1 : Int) + 1)).toNat

/-- `PcfParser.parseEncodingTable`: the first 32-bit word (the repeated
format) is read little-endian; every following field uses the
endianness given by bit 2 of the format argument. -/
def parseEncodingTable (buf : List Nat) (offset format : Nat) :
    Option EncodingTable :=
  let e := getEndianessFromFormat format
  (readU32 .little buf offset).bind fun fmt =>
  (readU16 e buf (offset + 4)).bind fun min2 =>
  (readU16 e buf (offset + 6)).bind fun max2 =>
  (readU16 e buf (offset + 8)).bind fun minB1 =>
  (readU16 e buf (offset + 10)).bind fun maxB1 =>
  (readU16 e buf (offset + 12)).bind fun defChar =>
  (readU16List e buf (offset + 14)
      (encodingIndexCount min2 max2 minB1 maxB1)).bind fun gi =>
  some ⟨fmt, min2, max2, minB1, maxB1, defChar, gi⟩

/-- A NUL-terminated byte string starting at absolute position `p`
(binary-parser `zeroTerminated`: stops at a 0 byte or at buffer end). -/
def zeroTerminatedString (buf : List Nat) (p : Nat) : List Nat :=
  (buf.drop p).takeWhile (· ≠ 0)

/-- The glyph name table (`PCF_GLYPH_NAMES`), as parsed. -/
structure GlyphNameTable where
  format : Nat
  glyphCount : Nat
  offsets : List Nat
  stringSize : Nat
  strings : List (List Nat)
deriving DecidableEq, Repr

/-- `PcfParser.parseGlyphNameTable`: format word little-endian, then
`glyphCount`, `glyphCount` 32-bit offsets and `stringSize` in the
table's endianness; strings are NUL-terminated, located at
`offset + (4*2 + 4*glyphCount + 4) + stringOffset`. -/
def parseGlyphNameTable (buf : List Nat) (offset format : Nat) :
    Option GlyphNameTable :=
  let e := getEndianessFromFormat format
  (readU32 .little buf offset).bind fun fmt =>
  (readU32 e buf (offset + 4)).bind fun glyphCount =>
  (readU32List e buf (offset + 8) glyphCount).bind fun offsets =>
  (readU32 e buf (offset + 8 + 4 * glyphCount)).bind fun stringSize =>
  let baseOffset := 4 * 2 + 4 * glyphCount + 4
  let strings := offsets.map fun so =>
    zeroTerminatedString buf (offset + baseOffset + so)
  some ⟨fmt, glyphCount, offsets, stringSize, strings⟩

/-- One metrics entry.  Fields are ℤ: the compressed representation
rebiases unsigned bytes by `-0x80`, producing negatives.  The field
name `leftSidedBearing` (sic) is kept from the source. -/
structure MetricsEntry where
  leftSidedBearing : Int
  rightSideBearing : Int
  characterWidth : Int
  characterAscent : Int
  characterDescent : Int
  characterAttributes : Int
deriving DecidableEq, Repr

/-- Rebias of a compressed metrics byte: `value - 0x80`. -/
def rebias (b : Nat) : Int := (b : Int) - 0x80

/-- One compressed metrics entry: five unsigned bytes, each rebiased by
`-0x80`, with `characterAttributes` set to 0. -/
def parseCompressedEntry (buf : List Nat) (i : Nat) : Option MetricsEntry :=
  (readU8 buf i).bind fun b1 =>
  (readU8 buf (i + 1)).bind fun b2 =>
  (readU8 buf (i + 2)).bind fun b3 =>
  (readU8 buf (i + 3)).bind fun b4 =>
  (readU8 buf (i + 4)).bind fun b5 =>
  some ⟨rebias b1, rebias b2, rebias b3, rebias b4, rebias b5, 0⟩

/-- `n` compressed metrics entries (stride 5). -/
def readCompressedEntries (buf : List Nat) (i : Nat) :
    Nat → Option (List MetricsEntry)
  | 0 => some []
  | n + 1 =>
    (parseCompressedEntry buf i).bind fun m =>
    (readCompressedEntries buf (i + 5) n).bind fun rest =>
    some (m :: rest)

/-- One uncompressed metrics entry: six unsigned 16-bit fields read
verbatim in the table's endianness. -/
def parseUncompressedEntry (e : Endian) (buf : List Nat) (i : Nat) :
    Option MetricsEntry :=
  (readU16 e buf i).bind fun b1 =>
  (readU16 e buf (i + 2)).bind fun b2 =>
  (readU16 e buf (i + 4)).bind fun b3 =>
  (readU16 e buf (i + 6)).bind fun b4 =>
  (readU16 e buf (i + 8)).bind fun b5 =>
  (readU16 e buf (i + 10)).bind fun b6 =>
  some ⟨(b1 : Int), (b2 : Int), (b3 : Int), (b4 : Int), (b5 : Int), (b6 : Int)⟩

/-- `n` uncompressed metrics entries (stride 12). -/
def readUncompressedEntries (e : Endian) (buf : List Nat) (i : Nat) :
    Nat → Option (List MetricsEntry)
  | 0 => some []
  | n + 1 =>
    (parseUncompressedEntry e buf i).bind fun m =>
    (readUncompressedEntries e buf (i + 12) n).bind fun rest =>
    some (m :: rest)

/-- The metrics table (`PCF_METRICS`), as parsed. -/
structure MetricsTable where
  format : Nat
  metricsCount : Nat
  metrics : List MetricsEntry
deriving DecidableEq, Repr

/-- `PcfParser.parseMetricsTable`: after the little-endian format word,
the compressed branch reads a 16-bit count and 5-byte entries, the
uncompressed branch a 32-bit count and 12-byte entries. -/
def parseMetricsTable (buf : List Nat) (offset format : Nat) :
    Option MetricsTable :=
  let e := getEndianessFromFormat format
  if isCompressedMetrics format then
    (readU32 .little buf offset).bind fun fmt =>
    (readU16 e buf (offset + 4)).bind fun count =>
    (readCompressedEntries buf (offset + 6) count).bind fun ms =>
    some ⟨fmt, count, ms⟩
  else
    (readU32 .little buf offset).bind fun fmt =>
    (readU32 e buf (offset + 4)).bind fun count =>
    (readUncompressedEntries e buf (offset + 8) count).bind fun ms =>
    some ⟨fmt, count, ms⟩

/-- The bitmap table (`PCF_BITMAPS`), as parsed, including the derived
`bitmapSize` (candidate selected by `format & 3`) and
`bitmapsBaseOffset` (`offset + 4*2 + 4*glyphCount + 4*4`). -/
structure BitmapTable where
  format : Nat
  glyphCount : Nat
  offsets : List Nat
  bitmapSizes : List Nat
  bitmapSize : Nat
  bitmapsBaseOffset : Nat
deriving DecidableEq, Repr

/-- `PcfParser.parseBitmapTable`. -/
def parseBitmapTable (buf : List Nat) (offset format : Nat) :
    Option BitmapTable :=
  let e := getEndianessFromFormat format
  (readU32 .little buf offset).bind fun fmt =>
  (readU32 e buf (offset + 4)).bind fun glyphCount =>
  (readU32List e buf (offset + 8) glyphCount).bind fun offsets =>
  (readU32List e buf (offset + 8 + 4 * glyphCount) 4).bind fun sizes =>
  some ⟨fmt, glyphCount, offsets, sizes, sizes.getD (fmt &&& 3) 0,
    offset + 4 * 2 + 4 * glyphCount + 4 * 4⟩

/-- A table-of-contents entry: type, format, size, offset (all 32-bit
little-endian). -/
structure TocEntry where
  type : Nat
  format : Nat
  size : Nat
  offset : Nat
deriving DecidableEq, Repr

/-- One 16-byte TOC entry at position `i`. -/
def parseTocEntry (buf : List Nat) (i : Nat) : Option TocEntry :=
  (readU32 .little buf i).bind fun t =>
  (readU32 .little buf (i + 4)).bind fun f =>
  (readU32 .little buf (i + 8)).bind fun s =>
  (readU32 .little buf (i + 12)).bind fun o =>
  some ⟨t, f, s, o⟩

/-- `n` TOC entries starting at `i` (stride 16). -/
def parseTocEntries (buf : List Nat) (i : Nat) : Nat → Option (List TocEntry)
  | 0 => some []
  | n + 1 =>
    (parseTocEntry buf i).bind fun entry =>
    (parseTocEntries buf (i + 16) n).bind fun rest =>
    some (entry :: rest)

/-- `tableTypeToString` joins the names of all set bits among bits 0..8;
a `switch` case for a single table name therefore matches exactly when
that one bit is the only set bit in the low 9 bits. -/
def typeMatchesBit (type bit : Nat) : Bool :=
  type &&& 511 == 1 <<< bit

/-- The 4-byte magic `'\u0001fcp'` as raw bytes. -/
def PCF_MAGIC : List Nat := [1, 102, 99, 112]

/-- The parsed PCF object: the four tables this converter decodes, plus
the table of contents. -/
structure Pcf where
  tocEntry : List TocEntry
  glyphNameTable : Option GlyphNameTable
  encodingTable : Option EncodingTable
  metricsTable : Option MetricsTable
  bitmapTable : Option BitmapTable
deriving DecidableEq, Repr

/-- Dispatch of one TOC entry, as the `switch` inside `PcfParser.parse`:
the matching table is decoded (failure aborts), other types are
ignored. -/
def dispatchTable (buf : List Nat) (pcf : Pcf) (entry : TocEntry) :
    Option Pcf :=
  if typeMatchesBit entry.type 7 then
    (parseGlyphNameTable buf entry.offset entry.format).bind fun t =>
    some { pcf with glyphNameTable := some t }
  else if typeMatchesBit entry.type 5 then
    (parseEncodingTable buf entry.offset entry.format).bind fun t =>
    some { pcf with encodingTable := some t }
  else if typeMatchesBit entry.type 2 then
    (parseMetricsTable buf entry.offset entry.format).bind fun t =>
    some { pcf with metricsTable := some t }
  else if typeMatchesBit entry.type 3 then
    (parseBitmapTable buf entry.offset entry.format).bind fun t =>
    some { pcf with bitmapTable := some t }
  else
    some pcf

/-- `PcfParser.parse`: reads the 4-byte header string, the little-endian
table count and the TOC; rejects a wrong magic (only after the TOC has
been read, as in the source); then decodes each table.  The final
access `this.pcf.metricsTable.metricsCount` in the source throws when
no metrics table was present, so success requires one. -/
def parse (buf : List Nat) : Option Pcf :=
  let header := buf.take 4
  (readU32 .little buf 4).bind fun tableCount =>
  (parseTocEntries buf 8 tableCount).bind fun toc =>
  if header ≠ PCF_MAGIC then
    none
  else
    (toc.foldlM (dispatchTable buf) ⟨toc, none, none, none, none⟩).bind
      fun pcf =>
    match pcf.metricsTable with
    | some _ => some pcf
    | none => none

/-- Byte range `[start, end)` of one glyph's bitmap, from
`PcfParser.getGlyphBitmap`: the end is the next glyph's offset, or the
selected `bitmapSize` for the last glyph; both are then shifted by
`bitmapsBaseOffset`. -/
def getGlyphBitmapRange (bt : BitmapTable) (glyphIndex : Nat) : Nat × Nat :=
  let bitmapOffset := bt.offsets.getD glyphIndex 0
  let bitmapEnd :=
    if glyphIndex < bt.glyphCount - 1 then bt.offsets.getD (glyphIndex + 1) 0
    else bt.bitmapSize
  (bitmapOffset + bt.bitmapsBaseOffset, bitmapEnd + bt.bitmapsBaseOffset)

/-- `PcfParser.getGlyphBitmap`: resolves the glyph index through the
encoding table, then slices the raw buffer at the bitmap range. -/
def getGlyphBitmap (buf : List Nat) (enc : EncodingTable)
    (bt : BitmapTable) (glyphCode : Nat) : List Nat :=
  let glyphIndex := enc.glyphIndeces.getD glyphCode 0
  let r := getGlyphBitmapRange bt glyphIndex
  (buf.take r.2).drop r.1

/-- Concrete encoding-table buffer with the big-endian flag (format 4):
format word stored little-endian, all later fields big-endian. -/
def exampleEncodingBufBE : List Nat :=
  [4, 0, 0, 0, 1, 2, 1, 3, 0, 0, 0, 0, 0, 0, 0, 5, 0, 6]

/-- Concrete compressed metrics table buffer (format `0x100`,
little-endian): 3 entries whose bytes are all `0x80`, all `0x00`, and
all `0xFF` respectively. -/
def exampleMetricsBufCompressed : List Nat :=
  [0, 1, 0, 0, 3, 0,
   0x80, 0x80, 0x80, 0x80, 0x80,
   0x00, 0x00, 0x00, 0x00, 0x00,
   0xFF, 0xFF, 0xFF, 0xFF, 0xFF]

/-- The metrics table parsed from `exampleMetricsBufCompressed`. -/
def exampleMetricsTable : MetricsTable :=
  ⟨0x100, 3,
   [⟨0, 0, 0, 0, 0, 0⟩,
    ⟨-128, -128, -128, -128, -128, 0⟩,
    ⟨127, 127, 127, 127, 127, 0⟩]⟩

/-- Concrete container whose only TOC entry is an encoding table at
offset 200, far past the 24-byte buffer end. -/
def exampleTruncatedBuf : List Nat :=
  [1, 102, 99, 112, 1, 0, 0, 0,
   32, 0, 0, 0, 0, 0, 0, 0, 0, 0, 0, 0, 200, 0, 0, 0]

/-- Concrete container whose only TOC entry is a glyph-name table at
offset 200, far past the 24-byte buffer end. -/
def exampleTruncatedNameBuf : List Nat :=
  [1, 102, 99, 112, 1, 0, 0, 0,
   128, 0, 0, 0, 0, 0, 0, 0, 0, 0, 0, 0, 200, 0, 0, 0]

/-- Concrete glyph-name table buffer (little-endian, format 0):
1 glyph, string offset 0, string size 2, string blob `"a\0"`. -/
def exampleGlyphNameBuf : List Nat :=
  [0, 0, 0, 0, 1, 0, 0, 0, 0, 0, 0, 0, 2, 0, 0, 0, 97, 0]

/-- The glyph name table parsed from `exampleGlyphNameBuf`. -/
def exampleGlyphNameTable : GlyphNameTable :=
  ⟨0, 1, [0], 2, [[97]]⟩

/-- Concrete bitmap-table buffer realizing the 3-glyph example of C3. -/
def exampleBitmapBuf : List Nat :=
  [0, 0, 0, 0, 3, 0, 0, 0, 0, 0, 0, 0, 8, 0, 0, 0, 20, 0, 0, 0,
   32, 0, 0, 0, 33, 0, 0, 0, 34, 0, 0, 0, 35, 0, 0, 0]

/-- The bitmap table parsed from `exampleBitmapBuf`: 3 glyphs, offsets
`[0, 8, 20]`, candidate sizes `[32, 33, 34, 35]`, selected size 32,
blob base offset 36. -/
def exampleBitmapTable : BitmapTable :=
  ⟨0, 3, [0, 8, 20], [32, 33, 34, 35], 32, 36⟩

end PcfParser

namespace Pcf2Opentype

open PcfParser (MetricsEntry)

/-- Character rendering an "off" pixel. -/
def WHITE_PIXEL : Char := '_'

/-- Character rendering an "on" pixel. -/
def BLACK_PIXEL : Char := '#'

/-- Fixed row stride of a glyph bitmap, in bytes. -/
def BYTES_PER_LINE : Nat := 4

/-- Design-space resolution (`UNITS_PER_EM = 1000`). -/
def UNITS_PER_EM : ℚ := 1000

/-- `PIXEL_SIZE = UNITS_PER_EM / PIXEL_HEIGHT`. -/
def PIXEL_SIZE (pixelHeight : Nat) : ℚ := UNITS_PER_EM / pixelHeight

/-- `PIXEL_PADDING = PIXEL_SIZE / 9`. -/
def PIXEL_PADDING (pixelHeight : Nat) : ℚ := PIXEL_SIZE pixelHeight / 9

/-- `DESCENDER_HEIGHT = PIXEL_SIZE * 3`. -/
def DESCENDER_HEIGHT (pixelHeight : Nat) : ℚ := PIXEL_SIZE pixelHeight * 3

/-- `DEFAULT_ASCENT_IN_PIXELS = PIXEL_HEIGHT - 2`. -/
def DEFAULT_ASCENT_IN_PIXELS (pixelHeight : Nat) : ℚ := (pixelHeight : ℚ) - 2

/-- `byteToBinaryString`: a defined byte yields its 8 bits
(most-significant first) as `BLACK_PIXEL`/`WHITE_PIXEL`.  An undefined
byte (read past the buffer end) goes through
`parseInt(undefined) = NaN`, whose rendering
`('00000000' + 'NaN').substr(-8)` is the literal 8-character string
`'00000NaN'`, then `0` is replaced by `WHITE_PIXEL`. -/
def byteToBinaryString : Option Nat → List Char
  | some v =>
    [if v.testBit 7 then BLACK_PIXEL else WHITE_PIXEL,
     if v.testBit 6 then BLACK_PIXEL else WHITE_PIXEL,
     if v.testBit 5 then BLACK_PIXEL else WHITE_PIXEL,
     if v.testBit 4 then BLACK_PIXEL else WHITE_PIXEL,
     if v.testBit 3 then BLACK_PIXEL else WHITE_PIXEL,
     if v.testBit 2 then BLACK_PIXEL else WHITE_PIXEL,
     if v.testBit 1 then BLACK_PIXEL else WHITE_PIXEL,
     if v.testBit 0 then BLACK_PIXEL else WHITE_PIXEL]
  | none => ['_', '_', '_', '_', '_', 'N', 'a', 'N']

/-- JavaScript `line.slice(0, width)` on a character list: a negative
end index counts from the end of the list. -/
def jsSlice (width : Int) (xs : List Char) : List Char :=
  if 0 ≤ width then xs.take width.toNat
  else xs.take (xs.length - (-width).toNat)

/-- One scanline: the four bytes of a row-stride chunk rendered and
concatenated, then cut down to `width` via `slice(0, width)`. -/
def lineOfChunk (width : Int) (chunk : List Nat) : List Char :=
  jsSlice width
    (byteToBinaryString chunk[0]? ++ byteToBinaryString chunk[1]? ++
     byteToBinaryString chunk[2]? ++ byteToBinaryString chunk[3]?)

/-- `bitmapToBinaryLines`: unpacks a glyph bitmap into scanlines of
width `width`, 4 buffer bytes per line.  The source loop
`for (i = 0; i < bitmap.length; i += BYTES_PER_LINE)` runs once per
row `r` with `i = 4·r`, i.e. `⌈length/4⌉` times, and row `r` reads
`bitmap[4·r + j]` for `j < 4`, i.e. the first bytes of
`bitmap.drop (4·r)`. -/
def bitmapToBinaryLines (bitmap : List Nat) (width : Int) : List (List Char) :=
  (List.range ((bitmap.length + 3) / 4)).map fun r =>
    lineOfChunk width (bitmap.drop (4 * r))

/-- `ASCII_SET.has`: code points 0x20..0xFF. -/
def ASCII_SET (glyphCode : Nat) : Bool :=
  decide (0x20 ≤ glyphCode) && decide (glyphCode ≤ 0xFF)

/-- `isAcceptedGlyph`, with the process-wide cached GB2312 set passed
explicitly as the immutable predicate `gb2312` and the two CLI flags as
arguments: `dry_run` selects the ASCII-only policy, otherwise
`gb2312_only` selects ASCII ∪ GB2312, otherwise every glyph is
accepted. -/
def isAcceptedGlyph (gb2312 : Nat → Bool) (dryRun gb2312Only : Bool)
    (glyphCode : Nat) : Bool :=
  if dryRun then ASCII_SET glyphCode
  else if gb2312Only then ASCII_SET glyphCode || gb2312 glyphCode
  else true

/-- `Math.round`: round half towards positive infinity. -/
def jsRound (q : ℚ) : ℤ := ⌊q + 1 / 2⌋

/-- `ScreenXyToFontXy` (pcf2opentype.js):
`[Math.round(x), Math.round(glyphTop - y)]`. -/
def ScreenXyToFontXy (x y glyphTop : ℚ) : ℚ × ℚ :=
  ((jsRound x : ℚ), (jsRound (glyphTop - y) : ℚ))

/-- One command of an opentype.js path. -/
inductive PathCmd where
  | moveTo (x y : ℚ)
  | lineTo (x y : ℚ)
  | curveTo (x1 y1 x2 y2 x y : ℚ)
deriving DecidableEq, Repr

/-- `drawSquareDot`: closed rectangle
top-left → bottom-left → bottom-right → top-right → top-left. -/
def drawSquareDot (path : List PathCmd) (left top right bottom : ℚ) :
    List PathCmd :=
  path ++ [.moveTo left top, .lineTo left bottom, .lineTo right bottom,
    .lineTo right top, .lineTo left top]

/-- `drawDiamondDot`: 4-gon through the side midpoints. -/
def drawDiamondDot (path : List PathCmd) (left top right bottom : ℚ) :
    List PathCmd :=
  let RADIUS := (right - left) / 2
  path ++ [.moveTo (left + RADIUS) top, .lineTo left (top - RADIUS),
    .lineTo (left + RADIUS) bottom, .lineTo right (top - RADIUS),
    .lineTo (left + RADIUS) top]

/-- Control-point factor of the 4-arc cubic circle approximation
(the source's floating literal `0.551915`, as an exact rational). -/
def CIRCLE_C : ℚ := 551915 / 1000000

/-- `drawCircleDot`: inscribed circle as 4 cubic Bézier arcs. -/
def drawCircleDot (path : List PathCmd) (left top right bottom : ℚ) :
    List PathCmd :=
  let C := CIRCLE_C
  let RADIUS := (right - left) / 2
  path ++ [.moveTo (left + RADIUS) top,
    .curveTo (left + RADIUS - RADIUS * C) top
      left (top - RADIUS + RADIUS * C)
      left (top - RADIUS),
    .curveTo left (top - RADIUS - RADIUS * C)
      (left + RADIUS - RADIUS * C) bottom
      (left + RADIUS) bottom,
    .curveTo (left + RADIUS + RADIUS * C) bottom
      right (top - RADIUS - RADIUS * C)
      right (top - RADIUS),
    .curveTo right (top - RADIUS + RADIUS * C)
      (left + RADIUS + RADIUS * C) top
      (left + RADIUS) top]

/-- The `--dot_shape` option. -/
inductive DotShape where
  | square
  | circle
  | diamond
deriving DecidableEq, Repr

/-- The body of the set-bit branch inside `vectorizeGlyph`'s double
loop: computes the padded cell corners in screen space, transforms them
with `ScreenXyToFontXy`, and dispatches on the dot shape. -/
def drawDot (dotShape : DotShape) (pixelHeight : Nat)
    (xOffset yOffset glyphTop : ℚ) (path : List PathCmd) (x y : Nat) :
    List PathCmd :=
  let x1 := xOffset + (x : ℚ) * PIXEL_SIZE pixelHeight + PIXEL_PADDING pixelHeight
  let y1 := yOffset + (y : ℚ) * PIXEL_SIZE pixelHeight + PIXEL_PADDING pixelHeight
  let lt := ScreenXyToFontXy x1 y1 glyphTop
  let x2 := xOffset + ((x : ℚ) + 1) * PIXEL_SIZE pixelHeight - PIXEL_PADDING pixelHeight
  let y2 := yOffset + ((y : ℚ) + 1) * PIXEL_SIZE pixelHeight - PIXEL_PADDING pixelHeight
  let rb := ScreenXyToFontXy x2 y2 glyphTop
  match dotShape with
  | .square => drawSquareDot path lt.1 lt.2 rb.1 rb.2
  | .circle => drawCircleDot path lt.1 lt.2 rb.1 rb.2
  | .diamond => drawDiamondDot path lt.1 lt.2 rb.1 rb.2

/-- `vectorizeGlyph`: unpacks the bitmap, walks every scanline and
column, draws one dot per set bit, and returns the path together with
the advance width `characterWidth * PIXEL_SIZE`. -/
def vectorizeGlyph (dotShape : DotShape) (pixelHeight : Nat)
    (metrics : MetricsEntry) (bitmap : List Nat) : List PathCmd × ℚ :=
  let width := metrics.characterWidth
  let glyphWidth := (width : ℚ) * PIXEL_SIZE pixelHeight
  let glyphTop := (pixelHeight : ℚ) * PIXEL_SIZE pixelHeight -
    DESCENDER_HEIGHT pixelHeight
  let xOffset := (metrics.leftSidedBearing : ℚ) * PIXEL_SIZE pixelHeight
  let yOffset := (DEFAULT_ASCENT_IN_PIXELS pixelHeight -
    (metrics.characterAscent : ℚ)) * PIXEL_SIZE pixelHeight
  let binaryLines := bitmapToBinaryLines bitmap width
  let path := binaryLines.enum.foldl (fun path yline =>
    yline.2.enum.foldl (fun path xch =>
      if xch.2 = BLACK_PIXEL then
        drawDot dotShape pixelHeight xOffset yOffset glyphTop path xch.1 yline.1
      else path) path) []
  (path, glyphWidth)

/-- The glyph-selection loop of `convert`: every code below
`glyphIndeces.length` whose glyph index is below `metricsCount`
(`index >= 0` always holds for an unsigned read) and which the filter
accepts is emitted, in code order. -/
def selectGlyphCodes (glyphIndeces : List Nat) (metricsCount : Nat)
    (accept : Nat → Bool) : List Nat :=
  (List.range glyphIndeces.length).filter fun code =>
    decide (glyphIndeces.getD code 0 < metricsCount) && accept code

/-- Number of `moveTo` commands (= number of sub-paths). -/
def moveToCount (path : List PathCmd) : Nat :=
  path.countP fun c => match c with
    | .moveTo _ _ => true
    | _ => false

/-- The on-curve end point of a path command. -/
def endPoint : PathCmd → ℚ × ℚ
  | .moveTo x y => (x, y)
  | .lineTo x y => (x, y)
  | .curveTo _ _ _ _ x y => (x, y)

/-- All points mentioned by a path (end points and Bézier control
points). -/
def pathPoints (path : List PathCmd) : List (ℚ × ℚ) :=
  path.flatMap fun c => match c with
    | .moveTo x y => [(x, y)]
    | .lineTo x y => [(x, y)]
    | .curveTo x1 y1 x2 y2 x y => [(x1, y1), (x2, y2), (x, y)]

/-- Every point of the path lies strictly inside the axis-aligned box
`(left, right) × (bottom, top)`; in particular the path's bounding box
does. -/
def pathStrictlyInside (path : List PathCmd) (left right bottom top : ℚ) :
    Prop :=
  ∀ p ∈ pathPoints path, left < p.1 ∧ p.1 < right ∧ bottom < p.2 ∧ p.2 < top

instance (path : List PathCmd) (left right bottom top : ℚ) :
    Decidable (pathStrictlyInside path left right bottom top) :=
  inferInstanceAs (Decidable (∀ _ ∈ _, _))

/-- `glyphTop` as computed in `vectorizeGlyph`:
`PIXEL_HEIGHT * PIXEL_SIZE - DESCENDER_HEIGHT`. -/
def glyphTopQ (h : Nat) : ℚ := (h : ℚ) * PIXEL_SIZE h - DESCENDER_HEIGHT h

/-- Left edge of the nominal cell of the bitmap pixel at column 0:
`xOffset = leftSidedBearing * PIXEL_SIZE` (pixel space = font space for
x coordinates). -/
def cellLeft (h : Nat) (lsb : ℤ) : ℚ := (lsb : ℚ) * PIXEL_SIZE h

/-- Top edge, in font coordinates, of the nominal cell of the bitmap
pixel at row 0: `glyphTop - yOffset` where
`yOffset = (DEFAULT_ASCENT_IN_PIXELS - characterAscent) * PIXEL_SIZE`. -/
def cellTopF (h : Nat) (asc : ℤ) : ℚ :=
  glyphTopQ h - (DEFAULT_ASCENT_IN_PIXELS h - (asc : ℚ)) * PIXEL_SIZE h

/-- The left x coordinate the vectorizer emits for the dot of the pixel
at row 0, column 0: the rounded padded cell corner. -/
def dotLeft (h : Nat) (lsb : ℤ) : ℚ :=
  (jsRound (cellLeft h lsb + PIXEL_PADDING h) : ℚ)

/-- Right x coordinate of the emitted dot (rounded). -/
def dotRight (h : Nat) (lsb : ℤ) : ℚ :=
  (jsRound (cellLeft h lsb + PIXEL_SIZE h - PIXEL_PADDING h) : ℚ)

/-- Top y coordinate (font space) of the emitted dot (rounded). -/
def dotTop (h : Nat) (asc : ℤ) : ℚ :=
  (jsRound (cellTopF h asc - PIXEL_PADDING h) : ℚ)

/-- Bottom y coordinate (font space) of the emitted dot (rounded). -/
def dotBottom (h : Nat) (asc : ℤ) : ℚ :=
  (jsRound (cellTopF h asc - PIXEL_SIZE h + PIXEL_PADDING h) : ℚ)

end Pcf2Opentype

namespace PcfParser

theorem readU32List_length {e : Endian} {buf : List Nat} :
    ∀ {n i l}, readU32List e buf i n = some l → l.length = n := by
  intro n
  induction n with
  | zero => intro i l h; simp [readU32List] at h; simp [← h]
  | succ m ih =>
    intro i l h
    simp only [readU32List, Option.bind_eq_some, Option.some.injEq] at h
    obtain ⟨v, -, rest, hrest, hl⟩ := h
    simp [← hl, ih hrest]

theorem getEndianessFromFormat_testBit (format : Nat) :
    getEndianessFromFormat format = Endian.big ↔ format.testBit 2 := by
  have h4 : 1 <<< 2 = 2 ^ 2 := by decide
  rw [getEndianessFromFormat, h4, Nat.and_two_pow]
  cases htb : format.testBit 2 <;> simp [htb]

/-- C1: in all four table decoders the first 32-bit field (the repeated
format word) is read little-endian whatever the format flags say, and
every multi-byte field after it is read with the endianness selected
by bit 2 of the format word (set ⇒ big-endian, clear ⇒ little-endian,
as the first conjunct characterizes `getEndianessFromFormat`).  The
compressed metrics entries consist of single bytes, so there the only
following multi-byte field is the 16-bit count. -/
theorem decoders_endianness (buf : List Nat) (off format : Nat) :
    (getEndianessFromFormat format = Endian.big ↔ format.testBit 2) ∧
    (∀ t, parseGlyphNameTable buf off format = some t →
      readU32 Endian.little buf off = some t.format ∧
      readU32 (getEndianessFromFormat format) buf (off + 4) =
        some t.glyphCount ∧
      readU32List (getEndianessFromFormat format) buf (off + 8)
        t.glyphCount = some t.offsets ∧
      readU32 (getEndianessFromFormat format) buf (off + 8 + 4 * t.glyphCount) =
        some t.stringSize) ∧
    (∀ t, parseEncodingTable buf off format = some t →
      readU32 Endian.little buf off = some t.format ∧
      readU16 (getEndianessFromFormat format) buf (off + 4) =
        some t.minCharOrByte2 ∧
      readU16 (getEndianessFromFormat format) buf (off + 6) =
        some t.maxCharOrByte2 ∧
      readU16 (getEndianessFromFormat format) buf (off + 8) =
        some t.minByte1 ∧
      readU16 (getEndianessFromFormat format) buf (off + 10) =
        some t.maxByte1 ∧
      readU16 (getEndianessFromFormat format) buf (off + 12) =
        some t.defaultChar ∧
      readU16List (getEndianessFromFormat format) buf (off + 14)
        (encodingIndexCount t.minCharOrByte2 t.maxCharOrByte2 t.minByte1
          t.maxByte1) = some t.glyphIndeces) ∧
    (∀ t, parseMetricsTable buf off format = some t →
      readU32 Endian.little buf off = some t.format ∧
      (isCompressedMetrics format = true →
        readU16 (getEndianessFromFormat format) buf (off + 4) =
          some t.metricsCount) ∧
      (isCompressedMetrics format = false →
        readU32 (getEndianessFromFormat format) buf (off + 4) =
          some t.metricsCount ∧
        readUncompressedEntries (getEndianessFromFormat format) buf (off + 8)
          t.metricsCount = some t.metrics)) ∧
    (∀ t, parseBitmapTable buf off format = some t →
      readU32 Endian.little buf off = some t.format ∧
      readU32 (getEndianessFromFormat format) buf (off + 4) =
        some t.glyphCount ∧
      readU32List (getEndianessFromFormat format) buf (off + 8)
        t.glyphCount = some t.offsets ∧
      readU32List (getEndianessFromFormat format) buf
        (off + 8 + 4 * t.glyphCount) 4 = some t.bitmapSizes) := by
  refine ⟨getEndianessFromFormat_testBit format, ?_, ?_, ?_, ?_⟩
  · intro t h
    simp only [parseGlyphNameTable, Option.bind_eq_some, Option.some.injEq] at h
    obtain ⟨f, hf, gc, hgc, offs, hoffs, ss, hss, hmk⟩ := h
    subst hmk
    exact ⟨hf, hgc, hoffs, hss⟩
  · intro t h
    simp only [parseEncodingTable, Option.bind_eq_some, Option.some.injEq] at h
    obtain ⟨f, hf, a, ha, b, hb, c, hc, d, hd, dc, hdc, gi, hgi, hmk⟩ := h
    subst hmk
    exact ⟨hf, ha, hb, hc, hd, hdc, hgi⟩
  · intro t h
    rw [parseMetricsTable] at h
    by_cases hcomp : isCompressedMetrics format = true
    · rw [if_pos hcomp] at h
      simp only [Option.bind_eq_some, Option.some.injEq] at h
      obtain ⟨f, hf, cnt, hcnt, ms, -, hmk⟩ := h
      subst hmk
      exact ⟨hf, fun _ => hcnt, fun hfalse => absurd hcomp (by simp [hfalse])⟩
    · rw [if_neg hcomp] at h
      simp only [Option.bind_eq_some, Option.some.injEq] at h
      obtain ⟨f, hf, cnt, hcnt, ms, hms, hmk⟩ := h
      subst hmk
      exact ⟨hf, fun htrue => absurd htrue hcomp, fun _ => ⟨hcnt, hms⟩⟩
  · intro t h
    simp only [parseBitmapTable, Option.bind_eq_some, Option.some.injEq] at h
    obtain ⟨f, hf, gc, hgc, offs, hoffs, sizes, hsizes, hmk⟩ := h
    subst hmk
    exact ⟨hf, hgc, hoffs, hsizes⟩

/-- Witness for C1: parsing `exampleEncodingBufBE` with format 4
(bit 2 set) succeeds; the format word 4 was read little-endian from
bytes `[4,0,0,0]` and `minCharOrByte2` was read big-endian from bytes
`[1,2]` as `0x0102 = 258` (little-endian would give 513). -/
theorem decoders_endianness_witness :
    parseEncodingTable exampleEncodingBufBE 0 4 =
      some ⟨4, 258, 259, 0, 0, 0, [5, 6]⟩ ∧
    readU32 Endian.little exampleEncodingBufBE 0 = some (4 : Nat) ∧
    readU16 (getEndianessFromFormat 4) exampleEncodingBufBE 4 =
      some (258 : Nat) ∧
    getEndianessFromFormat 4 = Endian.big :=
  ⟨by decide,
   by
    have h := ((decoders_endianness exampleEncodingBufBE 0 4).2.2.1
      ⟨4, 258, 259, 0, 0, 0, [5, 6]⟩ (by decide)).1
    exact h,
   by
    have h := ((decoders_endianness exampleEncodingBufBE 0 4).2.2.1
      ⟨4, 258, 259, 0, 0, 0, [5, 6]⟩ (by decide)).2.1
    exact h,
   by decide⟩

theorem readCompressedEntries_spec {buf : List Nat} :
    ∀ {n i l}, readCompressedEntries buf i n = some l →
      l.length = n ∧
      ∀ k, k < n → l[k]? = parseCompressedEntry buf (i + 5 * k) := by
  intro n
  induction n with
  | zero =>
    intro i l h
    simp only [readCompressedEntries, Option.some.injEq] at h
    simp [← h]
  | succ m ih =>
    intro i l h
    simp only [readCompressedEntries, Option.bind_eq_some,
      Option.some.injEq] at h
    obtain ⟨entry, hentry, rest, hrest, hl⟩ := h
    subst hl
    obtain ⟨hlen, hget⟩ := ih hrest
    refine ⟨by simp [hlen], ?_⟩
    intro k hk
    cases k with
    | zero => simpa using hentry.symm
    | succ j =>
      have := hget j (by omega)
      simpa [Nat.mul_succ, Nat.add_assoc, Nat.add_comm, Nat.add_left_comm]
        using this

/-- C2: for a metrics table whose format marks compressed metrics, the
decoder reads a 16-bit count (table endianness) and then that many
5-byte entries of unsigned bytes; each of the five fields is rebiased
by `-0x80` and `characterAttributes` is forced to 0; the rebias maps
`0x80 ↦ 0`, `0x00 ↦ -128` and `0xFF ↦ 127`. -/
theorem parseMetricsTable_compressed (buf : List Nat) (off format : Nat)
    (hcomp : isCompressedMetrics format = true) :
    (∀ t, parseMetricsTable buf off format = some t →
      readU16 (getEndianessFromFormat format) buf (off + 4) =
        some t.metricsCount ∧
      t.metrics.length = t.metricsCount ∧
      (∀ k, k < t.metricsCount →
        t.metrics[k]? = parseCompressedEntry buf (off + 6 + 5 * k)) ∧
      ∀ m ∈ t.metrics, m.characterAttributes = 0) ∧
    (∀ i m, parseCompressedEntry buf i = some m →
      ∃ b1 b2 b3 b4 b5, readU8 buf i = some b1 ∧
        readU8 buf (i + 1) = some b2 ∧ readU8 buf (i + 2) = some b3 ∧
        readU8 buf (i + 3) = some b4 ∧ readU8 buf (i + 4) = some b5 ∧
        m = ⟨rebias b1, rebias b2, rebias b3, rebias b4, rebias b5, 0⟩) ∧
    rebias 0x80 = 0 ∧ rebias 0x00 = -128 ∧ rebias 0xFF = 127 := by
  have hentry : ∀ i m, parseCompressedEntry buf i = some m →
      ∃ b1 b2 b3 b4 b5, readU8 buf i = some b1 ∧
        readU8 buf (i + 1) = some b2 ∧ readU8 buf (i + 2) = some b3 ∧
        readU8 buf (i + 3) = some b4 ∧ readU8 buf (i + 4) = some b5 ∧
        m = ⟨rebias b1, rebias b2, rebias b3, rebias b4, rebias b5, 0⟩ := by
    intro i m h
    simp only [parseCompressedEntry, Option.bind_eq_some, Option.some.injEq] at h
    obtain ⟨b1, h1, b2, h2, b3, h3, b4, h4, b5, h5, hm⟩ := h
    exact ⟨b1, b2, b3, b4, b5, h1, h2, h3, h4, h5, hm.symm⟩
  refine ⟨?_, hentry, by decide, by decide, by decide⟩
  intro t h
  rw [parseMetricsTable, if_pos hcomp] at h
  simp only [Option.bind_eq_some, Option.some.injEq] at h
  obtain ⟨f, -, cnt, hcnt, ms, hms, hmk⟩ := h
  subst hmk
  obtain ⟨hlen, hget⟩ := readCompressedEntries_spec hms
  refine ⟨hcnt, hlen, hget, ?_⟩
  intro m hm
  obtain ⟨k, hk⟩ := List.mem_iff_getElem?.mp hm
  have hk' : k < cnt := by
    have h2 : k < ms.length := (List.getElem?_eq_some.mp hk).1
    omega
  have := hget k hk'
  rw [hk] at this
  obtain ⟨b1, b2, b3, b4, b5, -, -, -, -, -, hmval⟩ :=
    hentry _ m this.symm
  simp [hmval]

/-- Witness for C2: the concrete compressed table parses to entries
`0`, `-128`, `127` obtained by rebiasing bytes `0x80`, `0x00`,
`0xFF`. -/
theorem parseMetricsTable_compressed_witness :
    parseMetricsTable exampleMetricsBufCompressed 0 0x100 =
      some exampleMetricsTable ∧
    exampleMetricsTable.metrics[0]? =
      parseCompressedEntry exampleMetricsBufCompressed 6 ∧
    rebias 0x80 = 0 ∧ rebias 0x00 = -128 ∧ rebias 0xFF = 127 :=
  ⟨by decide,
   by
    have h := ((parseMetricsTable_compressed exampleMetricsBufCompressed 0
      0x100 (by decide)).1 exampleMetricsTable (by decide)).2.2.1 0 (by decide)
    simpa using h,
   (parseMetricsTable_compressed exampleMetricsBufCompressed 0 0x100
     (by decide)).2.2.1,
   (parseMetricsTable_compressed exampleMetricsBufCompressed 0 0x100
     (by decide)).2.2.2.1,
   (parseMetricsTable_compressed exampleMetricsBufCompressed 0 0x100
     (by decide)).2.2.2.2⟩

/-- C3: the byte range of glyph `i` starts at
`offsets[i] + bitmapsBaseOffset`; it ends at
`offsets[i+1] + bitmapsBaseOffset` when `i` is not the last glyph and
at `bitmapSize + bitmapsBaseOffset` when it is, where a parsed table's
`bitmapSize` is the candidate selected by `format & 3` among the 4
stored candidates. -/
theorem getGlyphBitmapRange_spec (bt : BitmapTable) (i : Nat)
    (hi : i < bt.glyphCount) :
    (i + 1 < bt.glyphCount →
      getGlyphBitmapRange bt i =
        (bt.offsets.getD i 0 + bt.bitmapsBaseOffset,
         bt.offsets.getD (i + 1) 0 + bt.bitmapsBaseOffset)) ∧
    (i + 1 = bt.glyphCount →
      getGlyphBitmapRange bt i =
        (bt.offsets.getD i 0 + bt.bitmapsBaseOffset,
         bt.bitmapSize + bt.bitmapsBaseOffset)) ∧
    ∀ buf off format, parseBitmapTable buf off format = some bt →
      bt.bitmapSizes.length = 4 ∧
      bt.bitmapSize = bt.bitmapSizes.getD (bt.format &&& 3) 0 ∧
      bt.bitmapsBaseOffset = off + 4 * 2 + 4 * bt.glyphCount + 4 * 4 := by
  refine ⟨?_, ?_, ?_⟩
  · intro hlt
    rw [getGlyphBitmapRange, if_pos (by omega)]
  · intro heq
    rw [getGlyphBitmapRange, if_neg (by omega)]
  · intro buf off format h
    simp only [parseBitmapTable, Option.bind_eq_some, Option.some.injEq] at h
    obtain ⟨f, -, gc, -, offs, -, sizes, hsizes, hmk⟩ := h
    subst hmk
    exact ⟨readU32List_length hsizes, rfl, rfl⟩

theorem readU8_bound {buf : List Nat} {i b : Nat}
    (h : readU8 buf i = some b) : i + 1 ≤ buf.length := by
  have := (List.getElem?_eq_some.mp h).1
  omega

theorem readU16_bound {e : Endian} {buf : List Nat} {i v : Nat}
    (h : readU16 e buf i = some v) : i + 2 ≤ buf.length := by
  simp only [readU16, Option.bind_eq_some] at h
  obtain ⟨b0, -, b1, h1, -⟩ := h
  have := readU8_bound h1
  omega

theorem readU32_bound {e : Endian} {buf : List Nat} {i v : Nat}
    (h : readU32 e buf i = some v) : i + 4 ≤ buf.length := by
  simp only [readU32, Option.bind_eq_some] at h
  obtain ⟨b0, -, b1, -, b2, -, b3, h3, -⟩ := h
  have := readU8_bound h3
  omega

theorem readU16List_bound {e : Endian} {buf : List Nat} :
    ∀ {n i l}, readU16List e buf i n = some l →
      l.length = n ∧ (n = 0 ∨ i + 2 * n ≤ buf.length) := by
  intro n
  induction n with
  | zero =>
    intro i l h
    simp only [readU16List, Option.some.injEq] at h
    simp [← h]
  | succ m ih =>
    intro i l h
    simp only [readU16List, Option.bind_eq_some, Option.some.injEq] at h
    obtain ⟨v, hv, rest, hrest, hl⟩ := h
    subst hl
    obtain ⟨hlen, hbound⟩ := ih hrest
    have hv2 := readU16_bound hv
    refine ⟨by simp [hlen], Or.inr ?_⟩
    rcases hbound with h0 | hb <;> omega

theorem parseCompressedEntry_bound {buf : List Nat} {i : Nat}
    {m : MetricsEntry} (h : parseCompressedEntry buf i = some m) :
    i + 5 ≤ buf.length := by
  simp only [parseCompressedEntry, Option.bind_eq_some] at h
  obtain ⟨b1, -, b2, -, b3, -, b4, -, b5, h5, -⟩ := h
  have := readU8_bound h5
  omega

theorem readCompressedEntries_bound {buf : List Nat} :
    ∀ {n i l}, readCompressedEntries buf i n = some l →
      l.length = n ∧ (n = 0 ∨ i + 5 * n ≤ buf.length) := by
  intro n
  induction n with
  | zero =>
    intro i l h
    simp only [readCompressedEntries, Option.some.injEq] at h
    simp [← h]
  | succ m ih =>
    intro i l h
    simp only [readCompressedEntries, Option.bind_eq_some,
      Option.some.injEq] at h
    obtain ⟨entry, hentry, rest, hrest, hl⟩ := h
    subst hl
    obtain ⟨hlen, hbound⟩ := ih hrest
    have he := parseCompressedEntry_bound hentry
    refine ⟨by simp [hlen], Or.inr ?_⟩
    rcases hbound with h0 | hb <;> omega

theorem parseUncompressedEntry_bound {e : Endian} {buf : List Nat} {i : Nat}
    {m : MetricsEntry} (h : parseUncompressedEntry e buf i = some m) :
    i + 12 ≤ buf.length := by
  simp only [parseUncompressedEntry, Option.bind_eq_some] at h
  obtain ⟨b1, -, b2, -, b3, -, b4, -, b5, -, b6, h6, -⟩ := h
  have := readU16_bound h6
  omega

theorem readUncompressedEntries_bound {e : Endian} {buf : List Nat} :
    ∀ {n i l}, readUncompressedEntries e buf i n = some l →
      l.length = n ∧ (n = 0 ∨ i + 12 * n ≤ buf.length) := by
  intro n
  induction n with
  | zero =>
    intro i l h
    simp only [readUncompressedEntries, Option.some.injEq] at h
    simp [← h]
  | succ m ih =>
    intro i l h
    simp only [readUncompressedEntries, Option.bind_eq_some,
      Option.some.injEq] at h
    obtain ⟨entry, hentry, rest, hrest, hl⟩ := h
    subst hl
    obtain ⟨hlen, hbound⟩ := ih hrest
    have he := parseUncompressedEntry_bound hentry
    refine ⟨by simp [hlen], Or.inr ?_⟩
    rcases hbound with h0 | hb <;> omega

theorem foldlM_dispatch_none {buf : List Nat} {entry : TocEntry}
    {toc : List TocEntry} (ha : entry ∈ toc)
    (hfail : ∀ pcf, dispatchTable buf pcf entry = none) :
    ∀ init, toc.foldlM (dispatchTable buf) init = none := by
  induction toc with
  | nil => cases ha
  | cons x xs ih =>
    intro init
    rcases List.mem_cons.mp ha with h | h
    · subst h
      simp [List.foldlM_cons, hfail]
    · cases hx : dispatchTable buf init x with
      | none => simp [List.foldlM_cons, hx]
      | some pcf =>
        simp only [List.foldlM_cons, hx, Option.some_bind]
        exact ih h pcf

theorem readU32List_bound {e : Endian} {buf : List Nat} :
    ∀ {n i l}, readU32List e buf i n = some l →
      l.length = n ∧ (n = 0 ∨ i + 4 * n ≤ buf.length) := by
  intro n
  induction n with
  | zero =>
    intro i l h
    simp only [readU32List, Option.some.injEq] at h
    simp [← h]
  | succ m ih =>
    intro i l h
    simp only [readU32List, Option.bind_eq_some, Option.some.injEq] at h
    obtain ⟨v, hv, rest, hrest, hl⟩ := h
    subst hl
    obtain ⟨hlen, hbound⟩ := ih hrest
    have hv2 := readU32_bound hv
    refine ⟨by simp [hlen], Or.inr ?_⟩
    rcases hbound with h0 | hb <;> omega

theorem typeMatchesBit_unique {t : Nat} (b b' : Nat)
    (h : typeMatchesBit t b = true) (hneq : (1 <<< b' : Nat) ≠ 1 <<< b) :
    typeMatchesBit t b' = false := by
  simp only [typeMatchesBit, beq_iff_eq] at h
  rw [typeMatchesBit, beq_eq_false_iff_ne, h]
  exact fun hh => hneq hh.symm

/-- C5: a declared count that would read past the buffer end makes the
decoder fail: conversely a successful glyph-name decode implies the
`glyphCount` offsets and the string-size word were in bounds, a
successful encoding decode implies all `14 + 2·count` table bytes were
in bounds, a successful metrics decode implies all `6 + 5·count`
(compressed) or `8 + 12·count` (uncompressed) bytes were in bounds,
and a successful bitmap decode implies the `glyphCount` offsets and
the 4 candidate sizes were in bounds.  When any TOC entry's decoder
(glyph-name, encoding, metrics or bitmap) fails, the whole parse
returns `none` — no partial table output. -/
theorem decoder_bounds_and_parse_aborts (buf : List Nat) (off format : Nat) :
    (∀ t, parseGlyphNameTable buf off format = some t →
      t.offsets.length = t.glyphCount ∧
      off + 12 + 4 * t.glyphCount ≤ buf.length) ∧
    (∀ t, parseEncodingTable buf off format = some t →
      off + 14 + 2 * t.glyphIndeces.length ≤ buf.length) ∧
    (∀ t, parseMetricsTable buf off format = some t →
      (isCompressedMetrics format = true →
        off + 6 + 5 * t.metrics.length ≤ buf.length) ∧
      (isCompressedMetrics format = false →
        off + 8 + 12 * t.metrics.length ≤ buf.length)) ∧
    (∀ t, parseBitmapTable buf off format = some t →
      t.offsets.length = t.glyphCount ∧
      off + 24 + 4 * t.glyphCount ≤ buf.length) ∧
    (∀ count toc entry, readU32 Endian.little buf 4 = some count →
      parseTocEntries buf 8 count = some toc → entry ∈ toc →
      ((typeMatchesBit entry.type 7 = true ∧
        parseGlyphNameTable buf entry.offset entry.format = none) ∨
       (typeMatchesBit entry.type 5 = true ∧
        parseEncodingTable buf entry.offset entry.format = none) ∨
       (typeMatchesBit entry.type 2 = true ∧
        parseMetricsTable buf entry.offset entry.format = none) ∨
       (typeMatchesBit entry.type 3 = true ∧
        parseBitmapTable buf entry.offset entry.format = none)) →
      parse buf = none) := by
  refine ⟨?_, ?_, ?_, ?_, ?_⟩
  · intro t h
    simp only [parseGlyphNameTable, Option.bind_eq_some, Option.some.injEq] at h
    obtain ⟨f, -, gc, -, offs, hoffs, ss, hss, hmk⟩ := h
    subst hmk
    have hbound := readU32_bound hss
    refine ⟨readU32List_length hoffs, ?_⟩
    simp only
    omega
  · intro t h
    simp only [parseEncodingTable, Option.bind_eq_some, Option.some.injEq] at h
    obtain ⟨f, -, a, -, b, -, c, -, d, -, dc, hdc, gi, hgi, hmk⟩ := h
    subst hmk
    have hbound := readU16_bound hdc
    obtain ⟨hlen, hb⟩ := readU16List_bound hgi
    simp only
    rcases hb with h0 | hb <;> omega
  · intro t h
    rw [parseMetricsTable] at h
    by_cases hcomp : isCompressedMetrics format = true
    · rw [if_pos hcomp] at h
      simp only [Option.bind_eq_some, Option.some.injEq] at h
      obtain ⟨f, -, cnt, hcnt, ms, hms, hmk⟩ := h
      subst hmk
      have hbound := readU16_bound hcnt
      obtain ⟨hlen, hb⟩ := readCompressedEntries_bound hms
      refine ⟨fun _ => ?_, fun hfalse => absurd hcomp (by simp [hfalse])⟩
      simp only
      rcases hb with h0 | hb <;> omega
    · rw [if_neg hcomp] at h
      simp only [Option.bind_eq_some, Option.some.injEq] at h
      obtain ⟨f, -, cnt, hcnt, ms, hms, hmk⟩ := h
      subst hmk
      have hbound := readU32_bound hcnt
      obtain ⟨hlen, hb⟩ := readUncompressedEntries_bound hms
      refine ⟨fun htrue => absurd htrue hcomp, fun _ => ?_⟩
      simp only
      rcases hb with h0 | hb <;> omega
  · intro t h
    simp only [parseBitmapTable, Option.bind_eq_some, Option.some.injEq] at h
    obtain ⟨f, -, gc, -, offs, hoffs, sizes, hsizes, hmk⟩ := h
    subst hmk
    obtain ⟨-, hb⟩ := readU32List_bound hsizes
    refine ⟨readU32List_length hoffs, ?_⟩
    simp only
    rcases hb with h0 | hb <;> omega
  · intro count toc entry hcount htoc hmem hfail
    have hstep : ∀ pcf, dispatchTable buf pcf entry = none := by
      intro pcf
      rcases hfail with ⟨h7, hname⟩ | ⟨h5, henc⟩ | ⟨h2, hmet⟩ | ⟨h3, hbmp⟩
      · rw [dispatchTable, if_pos h7, hname]
        rfl
      · rw [dispatchTable,
          if_neg (by simp [typeMatchesBit_unique 5 7 h5 (by decide)]),
          if_pos h5, henc]
        rfl
      · rw [dispatchTable,
          if_neg (by simp [typeMatchesBit_unique 2 7 h2 (by decide)]),
          if_neg (by simp [typeMatchesBit_unique 2 5 h2 (by decide)]),
          if_pos h2, hmet]
        rfl
      · rw [dispatchTable,
          if_neg (by simp [typeMatchesBit_unique 3 7 h3 (by decide)]),
          if_neg (by simp [typeMatchesBit_unique 3 5 h3 (by decide)]),
          if_neg (by simp [typeMatchesBit_unique 3 2 h3 (by decide)]),
          if_pos h3, hbmp]
        rfl
    rw [parse, hcount]
    simp only [Option.some_bind, htoc]
    by_cases hmagic : buf.take 4 ≠ PCF_MAGIC
    · rw [if_pos hmagic]
    · rw [if_neg hmagic, foldlM_dispatch_none hmem hstep]
      rfl

/-- Witness for C5: both truncated containers (encoding table and
glyph-name table at offset 200) abort the whole parse, and the
concrete glyph-name and bitmap tables realize their `glyphCount`-driven
in-bounds facts. -/
theorem decoder_bounds_and_parse_aborts_witness :
    parse exampleTruncatedBuf = none ∧
    parse exampleTruncatedNameBuf = none ∧
    0 + 12 + 4 * exampleGlyphNameTable.glyphCount ≤
      exampleGlyphNameBuf.length ∧
    0 + 24 + 4 * exampleBitmapTable.glyphCount ≤ exampleBitmapBuf.length :=
  ⟨(decoder_bounds_and_parse_aborts exampleTruncatedBuf 0 0).2.2.2.2 1
    [⟨32, 0, 0, 200⟩] ⟨32, 0, 0, 200⟩ (by decide) (by decide)
    (by decide) (Or.inr (Or.inl ⟨by decide, by decide⟩)),
   (decoder_bounds_and_parse_aborts exampleTruncatedNameBuf 0 0).2.2.2.2 1
    [⟨128, 0, 0, 200⟩] ⟨128, 0, 0, 200⟩ (by decide) (by decide)
    (by decide) (Or.inl ⟨by decide, by decide⟩),
   ((decoder_bounds_and_parse_aborts exampleGlyphNameBuf 0 0).1
     exampleGlyphNameTable (by decide)).2,
   ((decoder_bounds_and_parse_aborts exampleBitmapBuf 0 0).2.2.2.1
     exampleBitmapTable (by decide)).2⟩

/-- C6: a buffer whose first 4 bytes differ from the magic signature
`[0x01, 'f', 'c', 'p']` never parses (`none`: no tables are returned),
and per-table decoding — hence any successful parse — is reached only
when the magic matches. -/
theorem parse_checks_magic (buf : List Nat) :
    (buf.take 4 ≠ PCF_MAGIC → parse buf = none) ∧
    (∀ pcf, parse buf = some pcf → buf.take 4 = PCF_MAGIC) := by
  have h1 : buf.take 4 ≠ PCF_MAGIC → parse buf = none := by
    intro hm
    rw [parse]
    cases hcount : readU32 Endian.little buf 4 with
    | none => rfl
    | some count =>
      simp only [Option.some_bind]
      cases htoc : parseTocEntries buf 8 count with
      | none => rfl
      | some toc =>
        simp only [Option.some_bind]
        rw [if_pos hm]
  refine ⟨h1, ?_⟩
  intro pcf h
  by_contra hm
  rw [h1 hm] at h
  cases h

/-- Witness for C6: an all-zero header does not parse. -/
theorem parse_checks_magic_witness :
    parse [0, 0, 0, 0, 0, 0, 0, 0] = none :=
  (parse_checks_magic [0, 0, 0, 0, 0, 0, 0, 0]).1 (by decide)

/-- Witness for C3: the glyph ranges of the example table are `[0,8)`,
`[8,20)` and `[20,32)` relative to the blob base offset 36, and the
parsed table's selected blob size is candidate `format & 3 = 0`,
i.e. 32. -/
theorem getGlyphBitmapRange_spec_witness :
    getGlyphBitmapRange exampleBitmapTable 0 = (0 + 36, 8 + 36) ∧
    getGlyphBitmapRange exampleBitmapTable 1 = (8 + 36, 20 + 36) ∧
    getGlyphBitmapRange exampleBitmapTable 2 = (20 + 36, 32 + 36) ∧
    exampleBitmapTable.bitmapSize =
      exampleBitmapTable.bitmapSizes.getD (exampleBitmapTable.format &&& 3) 0 :=
  ⟨(getGlyphBitmapRange_spec exampleBitmapTable 0 (by decide)).1 (by decide),
   (getGlyphBitmapRange_spec exampleBitmapTable 1 (by decide)).1 (by decide),
   (getGlyphBitmapRange_spec exampleBitmapTable 2 (by decide)).2.1 (by decide),
   ((getGlyphBitmapRange_spec exampleBitmapTable 2 (by decide)).2.2
      exampleBitmapBuf 0 0 (by decide)).2.1⟩

end PcfParser

namespace Pcf2Opentype

/-- C4 counterexample: with an encoding table mapping code point 0 to
the absent sentinel `0xFFFF` and a metrics table declaring
`metricsCount = 0x10000`, the conversion loop emits code point 0 (the
source only checks `index < metricsCount`), while the claim demands
that a sentinel-mapped code point always be excluded. -/
theorem selectGlyphCodes_sentinel_not_excluded :
    selectGlyphCodes [0xFFFF] 0x10000 (fun _ => true) = [0] := by decide

/-- C4 (amended): a code point whose glyph index is outside
`[0, metricsCount)` — which covers the sentinel `0xFFFF` whenever
`metricsCount ≤ 0xFFFF` — is excluded from the emitted sequence, with
no `defaultChar` substitution, and membership of every other code
point is unaffected: a code is emitted exactly when its own index is
below `metricsCount` and the filter accepts it. -/
theorem selectGlyphCodes_excludes_invalid (glyphIndeces : List Nat)
    (metricsCount : Nat) (accept : Nat → Bool) (code : Nat)
    (_hcode : code < glyphIndeces.length)
    (hidx : metricsCount ≤ glyphIndeces.getD code 0) :
    code ∉ selectGlyphCodes glyphIndeces metricsCount accept ∧
    ∀ c, c ∈ selectGlyphCodes glyphIndeces metricsCount accept ↔
      c < glyphIndeces.length ∧ glyphIndeces.getD c 0 < metricsCount ∧
      accept c = true := by
  constructor
  · intro hmem
    simp only [selectGlyphCodes, List.mem_filter, List.mem_range,
      Bool.and_eq_true, decide_eq_true_eq] at hmem
    omega
  · intro c
    simp only [selectGlyphCodes, List.mem_filter, List.mem_range,
      Bool.and_eq_true, decide_eq_true_eq]
    try tauto

/-- Witness for the amended C4: in a table where code 0 maps to the
sentinel `0xFFFF` and `metricsCount = 10`, code 0 is excluded while
code 1 (index 2) is still emitted. -/
theorem selectGlyphCodes_excludes_invalid_witness :
    0 ∉ selectGlyphCodes [0xFFFF, 2, 5] 10 (fun _ => true) ∧
    1 ∈ selectGlyphCodes [0xFFFF, 2, 5] 10 (fun _ => true) :=
  ⟨(selectGlyphCodes_excludes_invalid [0xFFFF, 2, 5] 10 (fun _ => true) 0
      (by decide) (by decide)).1,
   ((selectGlyphCodes_excludes_invalid [0xFFFF, 2, 5] 10 (fun _ => true) 0
      (by decide) (by decide)).2 1).mpr (by decide)⟩

/-- C8: the code-point filter is a pure function of the code point and
the policy flags (the cached GB2312 set enters only as the immutable
predicate argument `gb2312`): with `dry_run` set (ASCII-only policy)
and with `gb2312_only` set (ASCII ∪ GB2312 policy) every code point in
`[0x20, 0xFF]` is accepted, whatever the GB2312 set contains, and the
full policy (both flags clear) accepts every code point. -/
theorem isAcceptedGlyph_policies (gb2312 : Nat → Bool) (glyphCode : Nat)
    (h1 : 0x20 ≤ glyphCode) (h2 : glyphCode ≤ 0xFF) :
    isAcceptedGlyph gb2312 true true glyphCode = true ∧
    isAcceptedGlyph gb2312 true false glyphCode = true ∧
    isAcceptedGlyph gb2312 false true glyphCode = true ∧
    ∀ (anyGb : Nat → Bool) (anyCode : Nat),
      isAcceptedGlyph anyGb false false anyCode = true := by
  refine ⟨?_, ?_, ?_, fun _ _ => rfl⟩ <;>
    simp [isAcceptedGlyph, ASCII_SET, h1, h2]

/-- Witness for C8 at code point `0x41` with an empty GB2312 set. -/
theorem isAcceptedGlyph_policies_witness :
    isAcceptedGlyph (fun _ => false) true true 0x41 = true ∧
    isAcceptedGlyph (fun _ => false) false true 0x41 = true :=
  ⟨(isAcceptedGlyph_policies (fun _ => false) 0x41 (by decide) (by decide)).1,
   (isAcceptedGlyph_policies (fun _ => false) 0x41 (by decide) (by decide)).2.2.1⟩

theorem byteToBinaryString_length (b : Option Nat) :
    (byteToBinaryString b).length = 8 := by
  cases b <;> rfl

theorem byteToBinaryString_none_no_black (k : Nat) :
    (byteToBinaryString none)[k]? ≠ some BLACK_PIXEL := by
  intro h
  have hk : k < 8 := by
    by_contra hge
    rw [List.getElem?_eq_none (by rw [byteToBinaryString_length]; omega)] at h
    cases h
  interval_cases k <;> exact absurd h (by decide)

theorem jsSlice_getElem? {width : Int} {xs : List Char} {k : Nat} {c : Char}
    (h : (jsSlice width xs)[k]? = some c) : xs[k]? = some c := by
  have htake : ∀ m : Nat, (xs.take m)[k]? = some c → xs[k]? = some c := by
    intro m hm
    rw [List.getElem?_take] at hm
    by_cases hk : k < m
    · rwa [if_pos hk] at hm
    · rw [if_neg hk] at hm
      cases hm
  rw [jsSlice] at h
  by_cases hw : 0 ≤ width
  · rw [if_pos hw] at h
    exact htake _ h
  · rw [if_neg hw] at h
    exact htake _ h

theorem lineOfChunk_black {width : Int} {chunk : List Nat} {k : Nat}
    (h : (lineOfChunk width chunk)[k]? = some BLACK_PIXEL) :
    ∃ b, chunk[k / 8]? = some b := by
  rw [lineOfChunk] at h
  have h4 := jsSlice_getElem? h
  have hlen0 := byteToBinaryString_length chunk[0]?
  have hlen1 := byteToBinaryString_length chunk[1]?
  have hlen2 := byteToBinaryString_length chunk[2]?
  have hlen3 := byteToBinaryString_length chunk[3]?
  have hlab : (byteToBinaryString chunk[0]? ++
      byteToBinaryString chunk[1]?).length = 16 := by
    rw [List.length_append, hlen0, hlen1]
  have hlabc : (byteToBinaryString chunk[0]? ++ byteToBinaryString chunk[1]? ++
      byteToBinaryString chunk[2]?).length = 24 := by
    rw [List.length_append, hlab, hlen2]
  by_cases hk0 : k < 8
  · rw [List.getElem?_append_left (by omega),
      List.getElem?_append_left (by omega),
      List.getElem?_append_left (by omega)] at h4
    have hdiv : k / 8 = 0 := by omega
    rw [hdiv]
    cases hc : chunk[0]? with
    | none => rw [hc] at h4; exact absurd h4 (byteToBinaryString_none_no_black k)
    | some b => exact ⟨b, rfl⟩
  by_cases hk1 : k < 16
  · rw [List.getElem?_append_left (by omega),
      List.getElem?_append_left (by omega),
      List.getElem?_append_right (by omega), hlen0] at h4
    have hdiv : k / 8 = 1 := by omega
    rw [hdiv]
    cases hc : chunk[1]? with
    | none =>
      rw [hc] at h4
      exact absurd h4 (byteToBinaryString_none_no_black (k - 8))
    | some b => exact ⟨b, rfl⟩
  by_cases hk2 : k < 24
  · rw [List.getElem?_append_left (by omega),
      List.getElem?_append_right (by omega), hlab] at h4
    have hdiv : k / 8 = 2 := by omega
    rw [hdiv]
    cases hc : chunk[2]? with
    | none =>
      rw [hc] at h4
      exact absurd h4 (byteToBinaryString_none_no_black (k - 16))
    | some b => exact ⟨b, rfl⟩
  by_cases hk3 : k < 32
  · rw [List.getElem?_append_right (by omega), hlabc] at h4
    have hdiv : k / 8 = 3 := by omega
    rw [hdiv]
    cases hc : chunk[3]? with
    | none =>
      rw [hc] at h4
      exact absurd h4 (byteToBinaryString_none_no_black (k - 24))
    | some b => exact ⟨b, rfl⟩
  · exfalso
    rw [List.getElem?_eq_none
      (by rw [List.length_append, hlabc, hlen3]; omega)] at h4
    cases h4

theorem bitmapToBinaryLines_getElem? (width : Int) (bitmap : List Nat)
    (r : Nat) (ln : List Char)
    (h : (bitmapToBinaryLines bitmap width)[r]? = some ln) :
    ln = lineOfChunk width (bitmap.drop (4 * r)) := by
  rw [bitmapToBinaryLines, List.getElem?_map] at h
  by_cases hrn : r < (bitmap.length + 3) / 4
  · rw [List.getElem?_range hrn] at h
    simp only [Option.map_some', Option.some.injEq] at h
    exact h.symm
  · rw [List.getElem?_eq_none (by simp; omega)] at h
    cases h

/-- C10: unpacking a glyph bitmap into scanlines is total and yields
`⌈length/4⌉` rows — the trailing partial row is emitted — and any
`BLACK_PIXEL` in row `r` at column position `k` comes from the
in-bounds buffer byte `4·r + k/8`: byte positions past the buffer end
(rendered through `parseInt(undefined) → 'NaN'`) never contribute a
black pixel. -/
theorem bitmapToBinaryLines_total (bitmap : List Nat) (width : Int) :
    (bitmapToBinaryLines bitmap width).length = (bitmap.length + 3) / 4 ∧
    ∀ r ln, (bitmapToBinaryLines bitmap width)[r]? = some ln →
      ∀ k, ln[k]? = some BLACK_PIXEL → 4 * r + k / 8 < bitmap.length := by
  refine ⟨by simp [bitmapToBinaryLines], ?_⟩
  intro r ln hline k hk
  rw [bitmapToBinaryLines_getElem? width bitmap r ln hline] at hk
  obtain ⟨b, hb⟩ := lineOfChunk_black hk
  rw [List.getElem?_drop] at hb
  have := (List.getElem?_eq_some.mp hb).1
  omega

/-- Witness for C10: the 1-byte bitmap `[0xFF]` yields a single line of
8 black pixels whose first black pixel maps to in-bounds byte 0. -/
theorem bitmapToBinaryLines_total_witness :
    (bitmapToBinaryLines [255] 8).length = 1 ∧ (4 * 0 + 0 / 8 : Nat) < 1 :=
  ⟨(bitmapToBinaryLines_total [255] 8).1.trans (by decide),
   (bitmapToBinaryLines_total [255] 8).2 0
     ['#', '#', '#', '#', '#', '#', '#', '#'] (by decide) 0 (by decide)⟩

/-- C9: `ScreenXyToFontXy` returns `(round x, round (glyphTop − y))`,
not the exact pair `(x, glyphTop − y)`: both components are integers
(denominator 1), they differ from the exact values in general
(e.g. at `x = y = 1/9`), and each dot-shape drawing function receives
exactly these rounded outputs as its left/top/right/bottom corners. -/
theorem ScreenXyToFontXy_rounds (x y glyphTop : ℚ) :
    ScreenXyToFontXy x y glyphTop =
      ((jsRound x : ℚ), (jsRound (glyphTop - y) : ℚ)) ∧
    (ScreenXyToFontXy x y glyphTop).1.den = 1 ∧
    (ScreenXyToFontXy x y glyphTop).2.den = 1 ∧
    ScreenXyToFontXy (1/9) (1/9) 997 ≠ ((1/9 : ℚ), 997 - 1/9) ∧
    ∀ (dotShape : DotShape) (ph : Nat) (xo yo gt : ℚ)
      (path : List PathCmd) (px py : Nat), ∃ l t r b : ℤ,
      drawDot dotShape ph xo yo gt path px py =
        match dotShape with
        | .square => drawSquareDot path l t r b
        | .circle => drawCircleDot path l t r b
        | .diamond => drawDiamondDot path l t r b := by
  refine ⟨rfl, ?_, ?_, ?_, ?_⟩
  · simp [ScreenXyToFontXy]
  · simp [ScreenXyToFontXy]
  · have h19 : jsRound (1/9 : ℚ) = 0 := by
      rw [jsRound]; norm_num
    intro h
    rw [ScreenXyToFontXy, Prod.mk.injEq, h19] at h
    norm_num at h
  · intro dotShape ph xo yo gt path px py
    refine ⟨jsRound (xo + (px : ℚ) * PIXEL_SIZE ph + PIXEL_PADDING ph),
      jsRound (gt - (yo + (py : ℚ) * PIXEL_SIZE ph + PIXEL_PADDING ph)),
      jsRound (xo + ((px : ℚ) + 1) * PIXEL_SIZE ph - PIXEL_PADDING ph),
      jsRound (gt - (yo + ((py : ℚ) + 1) * PIXEL_SIZE ph - PIXEL_PADDING ph)),
      ?_⟩
    cases dotShape <;> rfl

end Pcf2Opentype

namespace Pcf2Opentype

theorem jsRound_le (q : ℚ) : (jsRound q : ℚ) ≤ q + 1 / 2 := by
  rw [jsRound]
  exact Int.floor_le _

theorem lt_jsRound (q : ℚ) : q - 1 / 2 < (jsRound q : ℚ) := by
  rw [jsRound]
  have := Int.sub_one_lt_floor (q + 1 / 2)
  linarith

/-- C7 counterexample: at pixel height 1000 (`PIXEL_SIZE = 1`,
`PIXEL_PADDING = 1/9 < 1/2`), vectorizing the 1-row bitmap whose only
set bit is at row 0, column 0 (characterWidth 1, leftSidedBearing 0,
ascent = default) produces the square `[0,1] × [996,997]`, whose
left and top edges coincide with the nominal pixel cell's edges
(`cellLeft = 0`, `cellTopF = 997`): the rounded coordinates are NOT
strictly inside the cell, contradicting the claim for this pixel
height. -/
theorem vectorizeGlyph_dot_touches_cell_edge :
    (vectorizeGlyph .square 1000 ⟨0, 0, 1, 998, 0, 0⟩ [0x80, 0, 0, 0]).1 =
      [.moveTo 0 997, .lineTo 0 996, .lineTo 1 996, .lineTo 1 997,
       .lineTo 0 997] ∧
    ¬ pathStrictlyInside (vectorizeGlyph .square 1000 ⟨0, 0, 1, 998, 0, 0⟩
        [0x80, 0, 0, 0]).1
      (cellLeft 1000 0) (cellLeft 1000 0 + PIXEL_SIZE 1000)
      (cellTopF 1000 998 - PIXEL_SIZE 1000) (cellTopF 1000 998) := by
  have hlines : bitmapToBinaryLines [0x80, 0, 0, 0] 1 = [['#']] := by decide
  have hpath : (vectorizeGlyph .square 1000 ⟨0, 0, 1, 998, 0, 0⟩
      [0x80, 0, 0, 0]).1 =
      [.moveTo 0 997, .lineTo 0 996, .lineTo 1 996, .lineTo 1 997,
       .lineTo 0 997] := by
    rw [vectorizeGlyph]
    simp only [hlines, List.enum, List.enumFrom, List.foldl_cons,
      List.foldl_nil, BLACK_PIXEL, drawDot, ScreenXyToFontXy, drawSquareDot,
      List.nil_append]
    rw [if_pos (by decide)]
    norm_num [PIXEL_SIZE, PIXEL_PADDING, DESCENDER_HEIGHT,
      DEFAULT_ASCENT_IN_PIXELS, UNITS_PER_EM, jsRound]
  refine ⟨hpath, ?_⟩
  intro hinside
  have h0 := hinside (0, 997) (by rw [hpath]; simp [pathPoints])
  have hcl : cellLeft 1000 0 = 0 := by norm_num [cellLeft]
  rw [hcl] at h0
  exact absurd h0.1 (by norm_num)

/-- C7 (amended): for every positive integer pixel height `h ≤ 222` —
i.e. whenever the padding `PIXEL_SIZE/9` exceeds the rounding error
bound `1/2` — vectorizing a 1-row bitmap whose only set bit is at
row 0, column 0 (characterWidth 1, any side bearings and ascent, square
dots) produces exactly one closed sub-path (a rectangle whose corners
are the padded unit-cell corners rounded to integers), and its
bounding box lies strictly inside the nominal pixel cell; the
separation from each cell edge is the padding only up to the rounding
of each corner (`±1/2`), not exactly `PIXEL_SIZE/9`. -/
theorem vectorizeGlyph_single_dot (h : Nat) (hpos : 0 < h) (hle : h ≤ 222)
    (lsb rsb asc desc attr : ℤ) :
    (vectorizeGlyph .square h ⟨lsb, rsb, 1, asc, desc, attr⟩
      [0x80, 0, 0, 0]).1 =
      [.moveTo (dotLeft h lsb) (dotTop h asc),
       .lineTo (dotLeft h lsb) (dotBottom h asc),
       .lineTo (dotRight h lsb) (dotBottom h asc),
       .lineTo (dotRight h lsb) (dotTop h asc),
       .lineTo (dotLeft h lsb) (dotTop h asc)] ∧
    moveToCount (vectorizeGlyph .square h ⟨lsb, rsb, 1, asc, desc, attr⟩
      [0x80, 0, 0, 0]).1 = 1 ∧
    ((vectorizeGlyph .square h ⟨lsb, rsb, 1, asc, desc, attr⟩
      [0x80, 0, 0, 0]).1.head?.map endPoint =
     (vectorizeGlyph .square h ⟨lsb, rsb, 1, asc, desc, attr⟩
      [0x80, 0, 0, 0]).1.getLast?.map endPoint) ∧
    pathStrictlyInside (vectorizeGlyph .square h ⟨lsb, rsb, 1, asc, desc, attr⟩
      [0x80, 0, 0, 0]).1
      (cellLeft h lsb) (cellLeft h lsb + PIXEL_SIZE h)
      (cellTopF h asc - PIXEL_SIZE h) (cellTopF h asc) := by
  have hpath : (vectorizeGlyph .square h ⟨lsb, rsb, 1, asc, desc, attr⟩
      [0x80, 0, 0, 0]).1 =
      [.moveTo (dotLeft h lsb) (dotTop h asc),
       .lineTo (dotLeft h lsb) (dotBottom h asc),
       .lineTo (dotRight h lsb) (dotBottom h asc),
       .lineTo (dotRight h lsb) (dotTop h asc),
       .lineTo (dotLeft h lsb) (dotTop h asc)] := by
    have hlines : bitmapToBinaryLines [0x80, 0, 0, 0] 1 = [['#']] := by decide
    rw [vectorizeGlyph]
    simp only [hlines, List.enum, List.enumFrom, List.foldl_cons,
      List.foldl_nil, BLACK_PIXEL, drawDot, ScreenXyToFontXy,
      drawSquareDot, List.nil_append, dotLeft, dotRight, dotTop, dotBottom,
      cellLeft, cellTopF, glyphTopQ]
    norm_num
    rw [if_pos (by decide)]
    ring_nf
  have hq : (0 : ℚ) < (h : ℚ) := by exact_mod_cast hpos
  have hle2 : (h : ℚ) ≤ 222 := by exact_mod_cast hle
  have hps : (9 / 2 : ℚ) < PIXEL_SIZE h := by
    rw [PIXEL_SIZE, UNITS_PER_EM, lt_div_iff₀ hq]
    linarith
  have hpad : PIXEL_PADDING h = PIXEL_SIZE h / 9 := rfl
  have hpad2 : (1 / 2 : ℚ) < PIXEL_PADDING h := by
    rw [hpad]
    linarith
  have hL1 := lt_jsRound (cellLeft h lsb + PIXEL_PADDING h)
  have hL2 := jsRound_le (cellLeft h lsb + PIXEL_PADDING h)
  have hR1 := lt_jsRound (cellLeft h lsb + PIXEL_SIZE h - PIXEL_PADDING h)
  have hR2 := jsRound_le (cellLeft h lsb + PIXEL_SIZE h - PIXEL_PADDING h)
  have hT1 := lt_jsRound (cellTopF h asc - PIXEL_PADDING h)
  have hT2 := jsRound_le (cellTopF h asc - PIXEL_PADDING h)
  have hB1 := lt_jsRound (cellTopF h asc - PIXEL_SIZE h + PIXEL_PADDING h)
  have hB2 := jsRound_le (cellTopF h asc - PIXEL_SIZE h + PIXEL_PADDING h)
  refine ⟨hpath, ?_, ?_, ?_⟩
  · rw [hpath]; rfl
  · rw [hpath]; rfl
  · rw [hpath]
    intro p hp
    simp only [pathPoints, List.flatMap_cons, List.flatMap_nil,
      List.append_nil, List.mem_append, List.mem_singleton] at hp
    have hdl : dotLeft h lsb =
      (jsRound (cellLeft h lsb + PIXEL_PADDING h) : ℚ) := rfl
    have hdr : dotRight h lsb =
      (jsRound (cellLeft h lsb + PIXEL_SIZE h - PIXEL_PADDING h) : ℚ) := rfl
    have hdt : dotTop h asc =
      (jsRound (cellTopF h asc - PIXEL_PADDING h) : ℚ) := rfl
    have hdb : dotBottom h asc =
      (jsRound (cellTopF h asc - PIXEL_SIZE h + PIXEL_PADDING h) : ℚ) := rfl
    rcases hp with hp | hp | hp | hp | hp <;> subst hp <;>
      refine ⟨?_, ?_, ?_, ?_⟩ <;>
      simp only [hdl, hdr, hdt, hdb] <;> linarith

/-- Witness for the amended C7 at pixel height 13 (ascent 11, zero side
bearings): one closed rectangle strictly inside the cell. -/
theorem vectorizeGlyph_single_dot_witness :
    moveToCount (vectorizeGlyph .square 13 ⟨0, 0, 1, 11, 0, 0⟩
      [0x80, 0, 0, 0]).1 = 1 ∧
    pathStrictlyInside (vectorizeGlyph .square 13 ⟨0, 0, 1, 11, 0, 0⟩
      [0x80, 0, 0, 0]).1
      (cellLeft 13 0) (cellLeft 13 0 + PIXEL_SIZE 13)
      (cellTopF 13 11 - PIXEL_SIZE 13) (cellTopF 13 11) :=
  ⟨(vectorizeGlyph_single_dot 13 (by decide) (by decide) 0 0 11 0 0).2.1,
   (vectorizeGlyph_single_dot 13 (by decide) (by decide) 0 0 11 0 0).2.2.2⟩

end Pcf2Opentype
